import Mathlib

/-!
# Verification of the cava_filter frame-scheduling core

Shallow embedding of `CavaFilter::generate_spectrum_file` and
`CavaFilter::print_freq_vals_line` from `src/cava_filter.cpp`, together with
theorems settling the specification claims about the frame exec plan, the
per-exec read-length resolver (stereo parity correction and fractional-sample
carry), the read–analyze–accumulate loop, and the output line formatting.

The C code computes its plan in `double` arithmetic on values derived from the
integer sample rate, the channel count and the (command-line) frame rate; the
embedding models this real-valued arithmetic exactly over `ℚ` and models the
C `int`/`size_t` conversions explicitly (`cTrunc` is the C double-to-int
truncation toward zero).
-/

namespace CavaSpec

/-- Run configuration: the fields of `CavaFilter` the scheduler reads
(`rate`, `channels`, `framerate`).  `input_len_per_channel` is the fixed
constant 4096. -/
structure Config where
  rate : ℕ
  channels : ℕ
  framerate : ℚ

/-- `const size_t input_len_per_channel = 4096;` -/
def inputLenPerChannel : ℕ := 4096

/-- `size_t input_len = input_len_per_channel * channels;` -/
def inputLen (cfg : Config) : ℕ := inputLenPerChannel * cfg.channels

/-- The configurations accepted by `process_command_line`: positive sample
rate (`rate < 1` is rejected), channels 1 or 2, positive frame rate. -/
def Valid (cfg : Config) : Prop :=
  1 ≤ cfg.rate ∧ (cfg.channels = 1 ∨ cfg.channels = 2) ∧ 0 < cfg.framerate

instance (cfg : Config) : Decidable (Valid cfg) := by
  unfold Valid; infer_instance

/-- `const double samples_per_frame = (double)(rate * channels) / framerate;` -/
def samplesPerFrame (cfg : Config) : ℚ :=
  ((cfg.rate * cfg.channels : ℕ) : ℚ) / cfg.framerate

/-- C double-to-int conversion: truncation toward zero. -/
def cTrunc (q : ℚ) : ℤ := if 0 ≤ q then ⌊q⌋ else ⌈q⌉

/-- `int execs_per_frame = ceil((samples_per_frame + channels) / input_len);`
(the value is a nonnegative integer already, so the int conversion keeps it). -/
def execsPerFrame (cfg : Config) : ℕ :=
  (⌈(samplesPerFrame cfg + (cfg.channels : ℚ)) / (inputLen cfg : ℚ)⌉).toNat

/-- `int samples_per_exec = samples_per_frame / execs_per_frame;` -/
def samplesPerExec (cfg : Config) : ℤ :=
  cTrunc (samplesPerFrame cfg / (execsPerFrame cfg : ℚ))

/-- `int samples_remainder = samples_per_frame - execs_per_frame * samples_per_exec;` -/
def samplesRemainder (cfg : Config) : ℤ :=
  cTrunc (samplesPerFrame cfg - (((execsPerFrame cfg : ℤ) * samplesPerExec cfg : ℤ) : ℚ))

/-- `double sample_fraction_per_frame = modf(samples_per_frame, &intpart);`
(`modf` keeps the fractional part, truncating toward zero). -/
def sampleFractionPerFrame (cfg : Config) : ℚ :=
  samplesPerFrame cfg - (cTrunc (samplesPerFrame cfg) : ℚ)

/-- `size_t read_len = samples_per_exec + (read_idx < samples_remainder);` -/
def baseLen (cfg : Config) (i : ℕ) : ℕ :=
  (samplesPerExec cfg).toNat + (if i < (samplesRemainder cfg).toNat then 1 else 0)

/-- The stereo-pairing correction:
`if (channels == 2 && is_odd(read_len)) { const int offset = is_odd(read_idx) ? -1 : 1;
read_len += offset; current_accumulated_sample_fractions -= offset; }`
Returns the adjusted read length and carry. -/
def parityAdjust (cfg : Config) (i len : ℕ) (c : ℚ) : ℕ × ℚ :=
  if cfg.channels = 2 ∧ len % 2 = 1 then
    (if i % 2 = 1 then (len - 1, c + 1) else (len + 1, c - 1))
  else (len, c)

/-- The last-exec carry injection:
`if (read_idx == execs_per_frame - 1) { current_accumulated_sample_fractions +=
sample_fraction_per_frame; if (current_accumulated_sample_fractions >= channels) {
read_len += channels; current_accumulated_sample_fractions -= channels; } }` -/
def lastInject (cfg : Config) (i len : ℕ) (c : ℚ) : ℕ × ℚ :=
  if i = execsPerFrame cfg - 1 then
    (if (cfg.channels : ℚ) ≤ c + sampleFractionPerFrame cfg then
       (len + cfg.channels, c + sampleFractionPerFrame cfg - (cfg.channels : ℚ))
     else (len, c + sampleFractionPerFrame cfg))
  else (len, c)

/-- One exec's read-length resolution (lines 145–163 of the source): base
length with remainder increment, then parity correction, then last-exec
carry injection.  Returns the requested read length and the updated carry. -/
def execResolve (cfg : Config) (c : ℚ) (i : ℕ) : ℕ × ℚ :=
  let p := parityAdjust cfg i (baseLen cfg i) c
  lastInject cfg i p.1 p.2

/-- The parity correction applied (as added to the read length) at exec
index `i`: `+1` at an even index, `-1` at an odd index, `0` when no
correction fires. -/
def offsetAt (cfg : Config) (i : ℕ) : ℤ :=
  if cfg.channels = 2 ∧ baseLen cfg i % 2 = 1 then (if i % 2 = 1 then -1 else 1) else 0

/-- Net parity correction over one frame's execs. -/
def frameNet (cfg : Config) : ℤ :=
  ∑ i in Finset.range (execsPerFrame cfg), offsetAt cfg i

/-- Resolve the read lengths for a list of exec indices, threading the carry
(the inner `for (read_idx ...)` loop's length computations). -/
def resolveList (cfg : Config) : List ℕ → ℚ → List ℕ × ℚ
  | [], c => ([], c)
  | i :: is, c =>
    let p := execResolve cfg c i
    let q := resolveList cfg is p.2
    (p.1 :: q.1, q.2)

/-- The read lengths requested for one frame starting from carry `c`. -/
def frameLens (cfg : Config) (c : ℚ) : List ℕ :=
  (resolveList cfg (List.range (execsPerFrame cfg)) c).1

/-- The carry after one full frame starting from carry `c`. -/
def carryStep (cfg : Config) (c : ℚ) : ℚ :=
  (resolveList cfg (List.range (execsPerFrame cfg)) c).2

/-- Carry state at the start of frame `k` (frames are 0-indexed;
`current_accumulated_sample_fractions` starts at `0.0`). -/
def carryAt (cfg : Config) : ℕ → ℚ
  | 0 => 0
  | k + 1 => carryStep cfg (carryAt cfg k)

/-- Total samples requested by frame `k` when no read is short. -/
def frameDemand (cfg : Config) (k : ℕ) : ℕ :=
  (frameLens cfg (carryAt cfg k)).sum

/-- Sum of all read lengths requested over the first `K` frames when no
read is short. -/
def pureCum (cfg : Config) (K : ℕ) : ℕ :=
  ∑ k in Finset.range K, frameDemand cfg k

/-- Loop state of `generate_spectrum_file`: the carry, the samples still
available on the input stream, the number of output lines printed, the
`finished` flag and whether `stat` carries an error. -/
structure SState where
  carry : ℚ
  remaining : ℕ
  emitted : ℕ
  finished : Bool
  error : Bool

/-- Walk one frame's execs against a stream with `rem` samples left:
each `fread` returns the full requested length iff enough samples remain,
otherwise the loop breaks with a short read (third component `false`). -/
def readList (cfg : Config) : List ℕ → ℚ → ℕ → ℚ × ℕ × Bool
  | [], c, rem => (c, rem, true)
  | i :: is, c, rem =>
    let p := execResolve cfg c i
    if p.1 ≤ rem then readList cfg is p.2 (rem - p.1)
    else (p.2, 0, false)

/-- One iteration of the outer `while (!finished)` loop: run the frame's
execs; if all reads were full, print one line (`emitted + 1`); on a short
read set `finished` and record an error exactly when the stream's error
indicator `err` is set (`ferror(in_file)`). -/
def frameStep (cfg : Config) (err : Bool) (s : SState) : SState :=
  if s.finished then s
  else
    let r := readList cfg (List.range (execsPerFrame cfg)) s.carry s.remaining
    if r.2.2 then ⟨r.1, r.2.1, s.emitted + 1, false, false⟩
    else ⟨r.1, r.2.1, s.emitted, true, err⟩

/-- The loop run for (up to) `K` frames against a stream holding `N`
samples whose error indicator at the point of exhaustion is `err`. -/
def runK (cfg : Config) (err : Bool) (N : ℕ) : ℕ → SState
  | 0 => ⟨0, N, 0, false, false⟩
  | K + 1 => frameStep cfg err (runK cfg err N K)

/-- `print_freq_vals_line`: the emitted integers of one output line, given
the frame accumulator as a function of bar index.  `(int)bar_ht` truncates
toward zero. -/
def printFreqValsLine (b co : ℕ) (fb : ℕ → ℚ) : List ℤ :=
  (List.range (b * co)).map fun i =>
    cTrunc (if co = 2 then fb i else (fb i + fb (i + b)) / 2)

/-- The indices of `frame_bars` read by `print_freq_vals_line` given
`bars_per_channel = b` and `channels_out = co`. -/
def valsLineIndices (b co : ℕ) : List ℕ :=
  (List.range (b * co)).flatMap fun i => if co = 2 then [i] else [i, i + b]

/-- `int bars_total = bars_per_channel * channels;` — the length of the
`frame_bars` (and `cava_out`) vectors. -/
def barsTotal (b ch : ℕ) : ℕ := b * ch

/-- The frame accumulator for one bar after `n` execs:
`frame_bars[bar_idx] += cava_out[bar_idx] / execs_per_frame;` where
`outs i` is exec `i`'s engine output for this bar. -/
def accumBar (cfg : Config) (outs : ℕ → ℚ) : ℕ → ℚ
  | 0 => 0
  | i + 1 => accumBar cfg outs i + outs i / (execsPerFrame cfg : ℚ)

/-- The default configuration (44100 Hz stereo at 25 frames/s). -/
def cfgDefault : Config := ⟨44100, 2, 25⟩

/-- 44100 Hz stereo at 8 frames/s: `samples_per_frame = 11025` is odd, the
parity correction always fires at exec index 0 with `+1`, and the carry
balance decreases without bound. -/
def cfgDrift : Config := ⟨44100, 2, 8⟩

/-- 81913 Hz stereo at 4 frames/s: `samples_per_frame = 40956.5`,
`execs_per_frame = 5`, `samples_per_exec = 8191`; on the 4th frame the last
exec receives both the `+1` parity correction and the `+channels` carry
injection and requests 8194 > 8192 samples. -/
def cfgOverflow : Config := ⟨81913, 2, 4⟩


set_option maxRecDepth 100000


/-! ## Basic consequences of configuration validity -/

theorem channels_pos (cfg : Config) (h : Valid cfg) : 0 < cfg.channels := by
  rcases h.2.1 with h2 | h2 <;> omega

theorem spf_pos (cfg : Config) (h : Valid cfg) : 0 < samplesPerFrame cfg := by
  have hr : 1 ≤ cfg.rate := h.1
  have h1 : 0 < cfg.rate * cfg.channels := Nat.mul_pos (by omega) (channels_pos cfg h)
  have h2 : (0 : ℚ) < ((cfg.rate * cfg.channels : ℕ) : ℚ) := by exact_mod_cast h1
  exact div_pos h2 h.2.2

theorem inputLen_pos (cfg : Config) (h : Valid cfg) : 0 < inputLen cfg := by
  have := channels_pos cfg h
  unfold inputLen inputLenPerChannel
  omega

theorem execsPerFrame_pos (cfg : Config) (h : Valid cfg) : 1 ≤ execsPerFrame cfg := by
  have hL : (0 : ℚ) < (inputLen cfg : ℚ) := by exact_mod_cast inputLen_pos cfg h
  have hch : (0 : ℚ) ≤ (cfg.channels : ℚ) := by positivity
  have hnum : (0 : ℚ) < samplesPerFrame cfg + (cfg.channels : ℚ) := by
    have := spf_pos cfg h; linarith
  have hc : 0 < ⌈(samplesPerFrame cfg + (cfg.channels : ℚ)) / (inputLen cfg : ℚ)⌉ :=
    Int.ceil_pos.mpr (div_pos hnum hL)
  unfold execsPerFrame
  omega

theorem execsPerFrameQ_pos (cfg : Config) (h : Valid cfg) :
    (0 : ℚ) < (execsPerFrame cfg : ℚ) := by
  exact_mod_cast execsPerFrame_pos cfg h

theorem cTrunc_eq_floor (q : ℚ) (hq : 0 ≤ q) : cTrunc q = ⌊q⌋ := by
  unfold cTrunc; rw [if_pos hq]

/-! ## The Frame Exec Plan (claim C5) -/

theorem samplesPerExec_eq_floor (cfg : Config) (h : Valid cfg) :
    samplesPerExec cfg = ⌊samplesPerFrame cfg / (execsPerFrame cfg : ℚ)⌋ := by
  unfold samplesPerExec
  exact cTrunc_eq_floor _ (le_of_lt (div_pos (spf_pos cfg h) (execsPerFrameQ_pos cfg h)))

theorem execs_mul_spe_le (cfg : Config) (h : Valid cfg) :
    (((execsPerFrame cfg : ℤ) * samplesPerExec cfg : ℤ) : ℚ) ≤ samplesPerFrame cfg := by
  have hE := execsPerFrameQ_pos cfg h
  have h1 : (samplesPerExec cfg : ℚ) ≤ samplesPerFrame cfg / (execsPerFrame cfg : ℚ) := by
    rw [samplesPerExec_eq_floor cfg h]; exact Int.floor_le _
  have h2 : (execsPerFrame cfg : ℚ) * (samplesPerExec cfg : ℚ) ≤
      (execsPerFrame cfg : ℚ) * (samplesPerFrame cfg / (execsPerFrame cfg : ℚ)) :=
    mul_le_mul_of_nonneg_left h1 (le_of_lt hE)
  have h3 : (execsPerFrame cfg : ℚ) * (samplesPerFrame cfg / (execsPerFrame cfg : ℚ)) =
      samplesPerFrame cfg := by
    rw [mul_comm]; exact div_mul_cancel₀ _ (ne_of_gt hE)
  push_cast
  linarith

theorem samplesRemainder_eq (cfg : Config) (h : Valid cfg) :
    samplesRemainder cfg =
      ⌊samplesPerFrame cfg⌋ - (execsPerFrame cfg : ℤ) * samplesPerExec cfg := by
  have harg : (0 : ℚ) ≤
      samplesPerFrame cfg - (((execsPerFrame cfg : ℤ) * samplesPerExec cfg : ℤ) : ℚ) := by
    have := execs_mul_spe_le cfg h; linarith
  unfold samplesRemainder
  rw [cTrunc_eq_floor _ harg, Int.floor_sub_int]

/-- The Frame Exec Plan identities (helper; claim C5 repackages this). -/
theorem plan_identity (cfg : Config) (h : Valid cfg) :
    samplesPerExec cfg = ⌊samplesPerFrame cfg / (execsPerFrame cfg : ℚ)⌋ ∧
    (execsPerFrame cfg : ℤ) * samplesPerExec cfg + samplesRemainder cfg =
      ⌊samplesPerFrame cfg⌋ ∧
    0 ≤ samplesRemainder cfg ∧ samplesRemainder cfg < (execsPerFrame cfg : ℤ) := by
  have hE := execsPerFrameQ_pos cfg h
  have hrem := samplesRemainder_eq cfg h
  refine ⟨samplesPerExec_eq_floor cfg h, by omega, ?_, ?_⟩
  · -- 0 ≤ remainder: execs * spe ≤ floor spf
    have h1 : (execsPerFrame cfg : ℤ) * samplesPerExec cfg ≤ ⌊samplesPerFrame cfg⌋ :=
      Int.le_floor.mpr (execs_mul_spe_le cfg h)
    omega
  · -- remainder < execs: spf < execs * (spe + 1)
    have h1 : samplesPerFrame cfg / (execsPerFrame cfg : ℚ) < (samplesPerExec cfg : ℚ) + 1 := by
      rw [samplesPerExec_eq_floor cfg h]; exact Int.lt_floor_add_one _
    have h2 : samplesPerFrame cfg <
        (execsPerFrame cfg : ℚ) * ((samplesPerExec cfg : ℚ) + 1) := by
      have := (div_lt_iff₀ hE).mp h1
      linarith [this]
    have h3 : ⌊samplesPerFrame cfg⌋ <
        (execsPerFrame cfg : ℤ) * (samplesPerExec cfg + 1) := by
      apply Int.floor_lt.mpr
      push_cast
      exact h2
    have h4 : (execsPerFrame cfg : ℤ) * (samplesPerExec cfg + 1) =
        (execsPerFrame cfg : ℤ) * samplesPerExec cfg + (execsPerFrame cfg : ℤ) := by ring
    omega

/-- Claim C5 (Frame Exec Plan guarantee): for every valid configuration,
`samples_per_exec = floor(samples_per_frame / execs_per_frame)`,
`execs_per_frame * samples_per_exec + samples_remainder = floor(samples_per_frame)`
exactly, and `0 ≤ samples_remainder < execs_per_frame`. -/
theorem c5_frame_exec_plan (cfg : Config) (h : Valid cfg) :
    samplesPerExec cfg = ⌊samplesPerFrame cfg / (execsPerFrame cfg : ℚ)⌋ ∧
    (execsPerFrame cfg : ℤ) * samplesPerExec cfg + samplesRemainder cfg =
      ⌊samplesPerFrame cfg⌋ ∧
    0 ≤ samplesRemainder cfg ∧ samplesRemainder cfg < (execsPerFrame cfg : ℤ) :=
  plan_identity cfg h

/-- Witness for C5 at the default configuration. -/
theorem c5_frame_exec_plan_witness :
    samplesPerExec cfgDefault = ⌊samplesPerFrame cfgDefault / (execsPerFrame cfgDefault : ℚ)⌋ ∧
    (execsPerFrame cfgDefault : ℤ) * samplesPerExec cfgDefault + samplesRemainder cfgDefault =
      ⌊samplesPerFrame cfgDefault⌋ ∧
    0 ≤ samplesRemainder cfgDefault ∧
    samplesRemainder cfgDefault < (execsPerFrame cfgDefault : ℤ) :=
  c5_frame_exec_plan cfgDefault (by decide)



/-! ## Stereo pairing (claim C4) -/

theorem execResolve_even (cfg : Config) (h2 : cfg.channels = 2) (c : ℚ) (i : ℕ) :
    (execResolve cfg c i).1 % 2 = 0 := by
  simp only [execResolve, lastInject, parityAdjust, h2]
  split_ifs with ha hb hc hd he hf hg <;> simp_all <;> omega

theorem resolveList_even (cfg : Config) (h2 : cfg.channels = 2) :
    ∀ (l : List ℕ) (c : ℚ), ∀ len ∈ (resolveList cfg l c).1, len % 2 = 0 := by
  intro l
  induction l with
  | nil => intro c len hlen; simp [resolveList] at hlen
  | cons i is ih =>
    intro c len hlen
    simp only [resolveList, List.mem_cons] at hlen
    rcases hlen with hl | hl
    · subst hl; exact execResolve_even cfg h2 c i
    · exact ih _ len hl

/-- Claim C4 (stereo pairing): for every valid configuration with
`channels == 2`, every read length computed by the per-exec resolver (after
the parity correction and the optional last-exec carry injection) is even,
for every exec of every frame. -/
theorem c4_stereo_even (cfg : Config) (h : Valid cfg) (h2 : cfg.channels = 2) (k : ℕ) :
    ∀ len ∈ frameLens cfg (carryAt cfg k), len % 2 = 0 :=
  fun len hlen => resolveList_even cfg h2 _ _ len hlen

/-- Witness for C4: the single read of frame 0 at the default configuration
has even length 3528. -/
theorem c4_stereo_even_witness : (3528 : ℕ) % 2 = 0 :=
  c4_stereo_even cfgDefault (by decide) rfl 0 3528 (by with_unfolding_all decide)

/-! ## Concrete evaluations: drift (C1), buffer overrun (C2), index bound (C3) -/

/-- Claim C1 counterexample: at the valid configuration 44100 Hz stereo,
frame rate 8 (`samples_per_frame = 11025`), the first two frames complete
with total requested length 22052, while `floor(2 * samples_per_frame) =
22050`: the error is 2 = channels samples, not less than one sample-pair.
(Each frame requests one extra sample: the parity correction fires at exec
index 0 every frame with `+1` and the carry balance decreases without
bound, so the drift grows linearly in the frame count.) -/
theorem c1_no_drift_counterexample :
    Valid cfgDrift ∧
    pureCum cfgDrift 2 = 22052 ∧
    ⌊(2 : ℚ) * samplesPerFrame cfgDrift⌋ = 22050 ∧
    ¬(((pureCum cfgDrift 2 : ℤ) - ⌊(2 : ℚ) * samplesPerFrame cfgDrift⌋).natAbs
        < cfgDrift.channels) := by
  with_unfolding_all decide

/-- Claim C2 failing evaluation: at the valid configuration 81913 Hz stereo,
frame rate 4, the last exec of the fourth frame (frame index 3, exec index 4)
receives both the `+1` parity correction and the `+channels` carry injection
and requests 8194 samples, exceeding the sample buffers of
`input_len = 8192` samples: `fread` and the decode loop write out of
bounds.  This contradicts the source's own comment `There should always be
room for this from the calculation of execs_per_frame`. -/
theorem c2_read_exceeds_buffer_eval :
    Valid cfgOverflow ∧
    (frameLens cfgOverflow (carryAt cfgOverflow 3)).getD 4 0 = 8194 ∧
    inputLen cfgOverflow = 8192 ∧
    ¬((frameLens cfgOverflow (carryAt cfgOverflow 3)).getD 4 0 ≤ inputLen cfgOverflow) := by
  with_unfolding_all decide

/-- Claim C3 failing evaluation: with `bars_per_channel = 2`, `channels = 1`,
`channels_out = 1` (all accepted by `process_command_line`),
`print_freq_vals_line`'s mono-averaging branch reads `frame_bars[1 + 2] = 3`,
but the accumulator only has `bars_total = bars_per_channel * channels = 2`
entries: an out-of-bounds `std::vector` read. -/
theorem c3_mono_oob_eval : 3 ∈ valsLineIndices 2 1 ∧ ¬(3 < barsTotal 2 1) := by
  decide



/-! ## Weight conservation (claim C6) -/

/-- Claim C6 (weight conservation): each of the `execs_per_frame` engine
invocations contributes its per-bar output to the frame accumulator with
weight exactly `1 / execs_per_frame`, independent of its read length
(`outs` is arbitrary), and the per-exec weights sum to exactly 1. -/
theorem c6_weight_conservation (cfg : Config) (h : Valid cfg) (outs : ℕ → ℚ) :
    accumBar cfg outs (execsPerFrame cfg) =
      (∑ i in Finset.range (execsPerFrame cfg), outs i) * (1 / (execsPerFrame cfg : ℚ)) ∧
    (List.replicate (execsPerFrame cfg) ((1 : ℚ) / (execsPerFrame cfg : ℚ))).sum = 1 := by
  have hE : (execsPerFrame cfg : ℚ) ≠ 0 := ne_of_gt (execsPerFrameQ_pos cfg h)
  constructor
  · have key : ∀ n, accumBar cfg outs n =
        (∑ i in Finset.range n, outs i) * (1 / (execsPerFrame cfg : ℚ)) := by
      intro n
      induction n with
      | zero => simp [accumBar]
      | succ n ih =>
        rw [Finset.sum_range_succ, add_mul, ← ih]
        show accumBar cfg outs n + outs n / (execsPerFrame cfg : ℚ) = _
        ring
    exact key _
  · rw [List.sum_replicate, nsmul_eq_mul, mul_one_div, div_self hE]

/-- Witness for C6 at the default configuration with constant engine output 1. -/
theorem c6_weight_conservation_witness :
    accumBar cfgDefault (fun _ => (1 : ℚ)) (execsPerFrame cfgDefault) =
      (∑ i in Finset.range (execsPerFrame cfgDefault), (1 : ℚ)) *
        (1 / (execsPerFrame cfgDefault : ℚ)) ∧
    (List.replicate (execsPerFrame cfgDefault) ((1 : ℚ) / (execsPerFrame cfgDefault : ℚ))).sum
      = 1 :=
  c6_weight_conservation cfgDefault (by decide) (fun _ => 1)

/-! ## Channel averaging and truncation (claim C9) -/

/-- Claim C9 (channel averaging and truncation): with output channel count 1
the `i`-th emitted integer is the average of accumulator entries `i` and
`i + bars_per_channel` truncated toward zero; with output channel count 2 it
is accumulator entry `i` (engine order) truncated toward zero. -/
theorem c9_channel_averaging (b co : ℕ) (fb : ℕ → ℚ) (i : ℕ)
    (hco : co = 1 ∨ co = 2) (hi : i < b * co) :
    (printFreqValsLine b co fb).getD i 0 =
      if co = 2 then cTrunc (fb i) else cTrunc ((fb i + fb (i + b)) / 2) := by
  unfold printFreqValsLine
  rw [List.getD_eq_getElem?_getD, List.getElem?_map, List.getElem?_range hi]
  simp only [Option.map_some', Option.getD_some]
  exact apply_ite cTrunc _ _ _

/-- Witness for C9: bars_per_channel 2, mono output, accumulator
`fun n => n + 1/2`. -/
theorem c9_channel_averaging_witness :
    (printFreqValsLine 2 1 (fun n => (n : ℚ) + 1/2)).getD 1 0 =
      if (1 : ℕ) = 2 then cTrunc (((1 : ℕ) : ℚ) + 1/2)
      else cTrunc ((((1 : ℕ) : ℚ) + 1/2 + (((1 + 2 : ℕ) : ℚ) + 1/2)) / 2) :=
  c9_channel_averaging 2 1 (fun n => (n : ℚ) + 1/2) 1 (Or.inl rfl) (by decide)

/-! ## Parity-correction self-balancing (claim C10) -/

theorem offsetAt_ne_zero_iff (cfg : Config) (i : ℕ) :
    offsetAt cfg i ≠ 0 ↔ (cfg.channels = 2 ∧ baseLen cfg i % 2 = 1) := by
  unfold offsetAt
  constructor
  · intro hne
    by_contra hcon
    rw [if_neg hcon] at hne
    exact hne rfl
  · intro hcon
    rw [if_pos hcon]
    split_ifs <;> decide

/-- Claim C10 (parity-correction self-balancing): for `channels == 2`,
an exec whose computed length is odd is adjusted by `+1` at an even exec
index and by `-1` at an odd exec index, with the adjustment simultaneously
subtracted from the carry state; and any two adjacent odd-length corrections
within a frame have adjustments summing to zero. -/
theorem c10_parity_self_balancing (cfg : Config) (h : Valid cfg) (h2 : cfg.channels = 2) :
    (∀ (c : ℚ) (len i : ℕ), len % 2 = 1 →
        parityAdjust cfg i len c =
          if i % 2 = 1 then (len - 1, c + 1) else (len + 1, c - 1)) ∧
    (∀ i j : ℕ, i < j → j < execsPerFrame cfg →
        offsetAt cfg i ≠ 0 → offsetAt cfg j ≠ 0 →
        (∀ k, i < k → k < j → offsetAt cfg k = 0) →
        offsetAt cfg i + offsetAt cfg j = 0) := by
  constructor
  · intro c len i hlen
    unfold parityAdjust
    rw [if_pos ⟨h2, hlen⟩]
  · intro i j hij hjE hi hj hbetween
    have hbi := ((offsetAt_ne_zero_iff cfg i).mp hi).2
    have hbj := ((offsetAt_ne_zero_iff cfg j).mp hj).2
    have hsucc : j = i + 1 := by
      by_contra hne
      have h0 : offsetAt cfg (i + 1) = 0 := hbetween (i + 1) (by omega) (by omega)
      have hb1 : baseLen cfg (i + 1) % 2 = 0 := by
        rcases Nat.mod_two_eq_zero_or_one (baseLen cfg (i + 1)) with hh | hh
        · exact hh
        · exact absurd h0 ((offsetAt_ne_zero_iff cfg (i + 1)).mpr ⟨h2, hh⟩)
      unfold baseLen at hbi hbj hb1
      split_ifs at hbi hbj hb1 <;> omega
    subst hsucc
    have hci := (offsetAt_ne_zero_iff cfg i).mp hi
    have hcj := (offsetAt_ne_zero_iff cfg (i + 1)).mp hj
    unfold offsetAt
    rw [if_pos hci, if_pos hcj]
    rcases Nat.mod_two_eq_zero_or_one i with hpar | hpar
    · have : (i + 1) % 2 = 1 := by omega
      rw [this, if_pos rfl, if_neg (by omega)]
      ring
    · have : (i + 1) % 2 = 0 := by omega
      rw [if_pos hpar, this, if_neg (by omega)]
      ring

/-- Witness for C10 at `cfgOverflow` (execs 1,2,3,4 all get corrections):
exec 2 (even) gets `+1` with carry decreased, and the adjacent corrections
at execs 1 and 2 cancel. -/
theorem c10_parity_self_balancing_witness :
    (parityAdjust cfgOverflow 2 8191 0 =
      if 2 % 2 = 1 then ((8191 : ℕ) - 1, (0 : ℚ) + 1) else ((8191 : ℕ) + 1, (0 : ℚ) - 1)) ∧
    offsetAt cfgOverflow 1 + offsetAt cfgOverflow 2 = 0 :=
  ⟨(c10_parity_self_balancing cfgOverflow (by decide) rfl).1 0 8191 2 (by decide),
   (c10_parity_self_balancing cfgOverflow (by decide) rfl).2 1 2 (by decide)
     (by with_unfolding_all decide) (by with_unfolding_all decide)
     (by with_unfolding_all decide)
     (fun k hk1 hk2 => absurd hk2 (by omega))⟩


/-! ## Carry dynamics of one frame -/

theorem parityAdjust_snd (cfg : Config) (i : ℕ) (c : ℚ) :
    (parityAdjust cfg i (baseLen cfg i) c).2 = c - (offsetAt cfg i : ℚ) := by
  unfold parityAdjust offsetAt
  split_ifs <;> push_cast <;> ring

theorem execResolve_snd_nonlast (cfg : Config) (c : ℚ) (i : ℕ)
    (hi : i ≠ execsPerFrame cfg - 1) :
    (execResolve cfg c i).2 = c - (offsetAt cfg i : ℚ) := by
  simp only [execResolve, lastInject]
  rw [if_neg hi]
  exact parityAdjust_snd cfg i c

theorem execResolve_snd_last (cfg : Config) (c : ℚ) (i : ℕ)
    (hi : i = execsPerFrame cfg - 1) :
    (execResolve cfg c i).2 =
      (if (cfg.channels : ℚ) ≤ c - (offsetAt cfg i : ℚ) + sampleFractionPerFrame cfg
       then c - (offsetAt cfg i : ℚ) + sampleFractionPerFrame cfg - (cfg.channels : ℚ)
       else c - (offsetAt cfg i : ℚ) + sampleFractionPerFrame cfg) := by
  simp only [execResolve, lastInject]
  rw [if_pos hi, apply_ite Prod.snd, parityAdjust_snd cfg i c]

theorem resolveList_append (cfg : Config) (l₁ l₂ : List ℕ) (c : ℚ) :
    resolveList cfg (l₁ ++ l₂) c =
      ((resolveList cfg l₁ c).1 ++ (resolveList cfg l₂ (resolveList cfg l₁ c).2).1,
        (resolveList cfg l₂ (resolveList cfg l₁ c).2).2) := by
  induction l₁ generalizing c with
  | nil => simp [resolveList]
  | cons i is ih => simp [resolveList, ih]

theorem resolveList_snd_nolast (cfg : Config) :
    ∀ (l : List ℕ) (c : ℚ), (∀ i ∈ l, i ≠ execsPerFrame cfg - 1) →
      (resolveList cfg l c).2 = c - (((l.map (offsetAt cfg)).sum : ℤ) : ℚ) := by
  intro l
  induction l with
  | nil => intro c _; simp [resolveList]
  | cons i is ih =>
    intro c hmem
    have hi : i ≠ execsPerFrame cfg - 1 := hmem i (by simp)
    have hrest : ∀ j ∈ is, j ≠ execsPerFrame cfg - 1 := fun j hj => hmem j (by simp [hj])
    simp only [resolveList, List.map_cons, List.sum_cons]
    rw [ih _ hrest, execResolve_snd_nonlast cfg c i hi]
    push_cast
    ring

theorem listRangeSum (f : ℕ → ℤ) (n : ℕ) :
    ((List.range n).map f).sum = ∑ i in Finset.range n, f i := by
  induction n with
  | zero => simp
  | succ n ih =>
    rw [List.range_succ, List.map_append, List.sum_append, Finset.sum_range_succ, ih]
    simp

/-- The carry after one frame, in closed form: subtract the frame's net
parity correction, add the per-frame sample fraction, and inject one
sample-pair when the balance reaches `channels`. -/
theorem carryStep_formula (cfg : Config) (h : Valid cfg) (c : ℚ) :
    carryStep cfg c =
      (if (cfg.channels : ℚ) ≤ c - (frameNet cfg : ℚ) + sampleFractionPerFrame cfg
       then c - (frameNet cfg : ℚ) + sampleFractionPerFrame cfg - (cfg.channels : ℚ)
       else c - (frameNet cfg : ℚ) + sampleFractionPerFrame cfg) := by
  obtain ⟨E', hE'⟩ : ∃ E', execsPerFrame cfg = E' + 1 :=
    ⟨execsPerFrame cfg - 1, by have := execsPerFrame_pos cfg h; omega⟩
  have hnotin : ∀ i ∈ List.range E', i ≠ execsPerFrame cfg - 1 := by
    intro i hi
    rw [List.mem_range] at hi
    omega
  have hlast : E' = execsPerFrame cfg - 1 := by omega
  have hpre : (resolveList cfg (List.range E') c).2 =
      c - ((((List.range E').map (offsetAt cfg)).sum : ℤ) : ℚ) :=
    resolveList_snd_nolast cfg _ c hnotin
  have hnet : frameNet cfg =
      (((List.range E').map (offsetAt cfg)).sum : ℤ) + offsetAt cfg E' := by
    unfold frameNet
    rw [hE', Finset.sum_range_succ, listRangeSum]
  unfold carryStep
  rw [hE', List.range_succ, resolveList_append]
  show (resolveList cfg [E'] (resolveList cfg (List.range E') c).2).2 = _
  simp only [resolveList]
  rw [execResolve_snd_last cfg _ E' hlast, hpre]
  have harg : c - ((((List.range E').map (offsetAt cfg)).sum : ℤ) : ℚ) -
      (offsetAt cfg E' : ℚ) + sampleFractionPerFrame cfg =
      c - (frameNet cfg : ℚ) + sampleFractionPerFrame cfg := by
    rw [hnet]
    push_cast
    ring
  rw [harg]



/-! ## Bounds on the net parity correction and the sample fraction -/

theorem altSum (k : ℕ) :
    ∑ i in Finset.range k, (if i % 2 = 1 then (-1 : ℤ) else 1) =
      (if k % 2 = 1 then 1 else 0) := by
  induction k with
  | zero => simp
  | succ k ih =>
    rw [Finset.sum_range_succ, ih]
    rcases Nat.mod_two_eq_zero_or_one k with hk | hk
    · have h1 : (k + 1) % 2 = 1 := by omega
      rw [if_neg (by omega), if_neg (by omega), if_pos h1]
      ring
    · have h1 : (k + 1) % 2 = 0 := by omega
      rw [if_pos hk, if_pos hk, if_neg (by omega)]
      ring

theorem remN_le_execs (cfg : Config) (h : Valid cfg) :
    (samplesRemainder cfg).toNat ≤ execsPerFrame cfg := by
  have hplan := plan_identity cfg h
  omega

theorem frameNet_lower (cfg : Config) (h : Valid cfg) :
    1 - (cfg.channels : ℤ) ≤ frameNet cfg := by
  rcases h.2.1 with h1 | h2
  · -- mono: no corrections at all
    have hz : ∀ i ∈ Finset.range (execsPerFrame cfg), offsetAt cfg i = 0 := by
      intro i _
      unfold offsetAt
      rw [if_neg]
      intro hcon
      omega
    unfold frameNet
    rw [Finset.sum_congr rfl hz]
    simp [h1]
  · -- stereo: the corrections form one block of consecutive indices with
    -- alternating signs, so their sum is -1, 0 or 1
    have hr := remN_le_execs cfg h
    rcases Nat.mod_two_eq_zero_or_one (samplesPerExec cfg).toNat with hs | hs
    · -- base even: corrections exactly at i < samples_remainder
      have hoff : ∀ i, offsetAt cfg i =
          (if i < (samplesRemainder cfg).toNat
           then (if i % 2 = 1 then (-1 : ℤ) else 1) else 0) := by
        intro i
        unfold offsetAt baseLen
        simp only [h2, eq_self_iff_true, true_and]
        split_ifs <;> omega
      have hsum : frameNet cfg =
          ∑ i in Finset.range (samplesRemainder cfg).toNat,
            (if i % 2 = 1 then (-1 : ℤ) else 1) := by
        unfold frameNet
        rw [Finset.sum_congr rfl (fun i _ => hoff i)]
        rw [← Finset.sum_subset (Finset.range_subset.mpr hr)]
        · exact Finset.sum_congr rfl (fun i hi => by
            rw [Finset.mem_range] at hi
            rw [if_pos hi])
        · intro i _ hnot
          rw [Finset.mem_range] at hnot
          rw [if_neg (by omega)]
      rw [hsum, altSum]
      have hch : (cfg.channels : ℤ) = 2 := by rw [h2]; rfl
      split_ifs <;> omega
    · -- base odd: corrections exactly at i ≥ samples_remainder
      have hoff : ∀ i, offsetAt cfg i =
          (if i % 2 = 1 then (-1 : ℤ) else 1) -
          (if i < (samplesRemainder cfg).toNat
           then (if i % 2 = 1 then (-1 : ℤ) else 1) else 0) := by
        intro i
        unfold offsetAt baseLen
        simp only [h2, eq_self_iff_true, true_and]
        split_ifs <;> omega
      have hsum : frameNet cfg =
          (∑ i in Finset.range (execsPerFrame cfg), (if i % 2 = 1 then (-1 : ℤ) else 1)) -
          ∑ i in Finset.range (samplesRemainder cfg).toNat,
            (if i % 2 = 1 then (-1 : ℤ) else 1) := by
        unfold frameNet
        rw [Finset.sum_congr rfl (fun i _ => hoff i), Finset.sum_sub_distrib]
        congr 1
        rw [← Finset.sum_subset (Finset.range_subset.mpr hr)]
        · exact Finset.sum_congr rfl (fun i hi => by
            rw [Finset.mem_range] at hi
            rw [if_pos hi])
        · intro i _ hnot
          rw [Finset.mem_range] at hnot
          rw [if_neg (by omega)]
      rw [hsum, altSum, altSum]
      have hch : (cfg.channels : ℤ) = 2 := by rw [h2]; rfl
      split_ifs <;> omega

theorem sampleFraction_nonneg (cfg : Config) (h : Valid cfg) :
    0 ≤ sampleFractionPerFrame cfg := by
  unfold sampleFractionPerFrame
  rw [cTrunc_eq_floor _ (le_of_lt (spf_pos cfg h))]
  have := Int.floor_le (samplesPerFrame cfg)
  linarith

theorem sampleFraction_lt_one (cfg : Config) (h : Valid cfg) :
    sampleFractionPerFrame cfg < 1 := by
  unfold sampleFractionPerFrame
  rw [cTrunc_eq_floor _ (le_of_lt (spf_pos cfg h))]
  have := Int.lt_floor_add_one (samplesPerFrame cfg)
  push_cast at this
  linarith

theorem channelsQ_one_le (cfg : Config) (h : Valid cfg) : (1 : ℚ) ≤ (cfg.channels : ℚ) := by
  have := channels_pos cfg h
  exact_mod_cast this

/-- Carry-interval preservation: when the net parity correction of a frame
is not `+1` (the amended no-drift hypothesis), a carry in `[0, channels)`
stays in `[0, channels)` across the frame. -/
theorem carryStep_bounds (cfg : Config) (h : Valid cfg) (hnet : frameNet cfg ≤ 0)
    (c : ℚ) (hc0 : 0 ≤ c) (hc1 : c < (cfg.channels : ℚ)) :
    0 ≤ carryStep cfg c ∧ carryStep cfg c < (cfg.channels : ℚ) := by
  have hlow := frameNet_lower cfg h
  have hch := channelsQ_one_le cfg h
  have hf0 := sampleFraction_nonneg cfg h
  have hf1 := sampleFraction_lt_one cfg h
  have hnetQ : (frameNet cfg : ℚ) ≤ 0 := by exact_mod_cast hnet
  have hlowQ : 1 - (cfg.channels : ℚ) ≤ (frameNet cfg : ℚ) := by
    have : ((1 - (cfg.channels : ℤ) : ℤ) : ℚ) ≤ ((frameNet cfg : ℤ) : ℚ) := by
      exact_mod_cast hlow
    push_cast at this
    linarith
  rw [carryStep_formula cfg h c]
  split_ifs with hinj
  · constructor <;> linarith
  · push_neg at hinj
    constructor <;> linarith

/-! ## Exact sample accounting of one frame -/

theorem lastInject_account (cfg : Config) (i : ℕ) (p : ℕ × ℚ) :
    ((lastInject cfg i p.1 p.2).1 : ℚ) + (lastInject cfg i p.1 p.2).2 =
      (p.1 : ℚ) + p.2 +
        (if i = execsPerFrame cfg - 1 then sampleFractionPerFrame cfg else 0) := by
  unfold lastInject
  split_ifs <;> push_cast <;> ring

theorem parityAdjust_account (cfg : Config) (c : ℚ) (i : ℕ) :
    ((parityAdjust cfg i (baseLen cfg i) c).1 : ℚ) +
      (parityAdjust cfg i (baseLen cfg i) c).2 = (baseLen cfg i : ℚ) + c := by
  unfold parityAdjust
  by_cases hc : cfg.channels = 2 ∧ baseLen cfg i % 2 = 1
  · have h1 : 1 ≤ baseLen cfg i := by omega
    rw [if_pos hc]
    split_ifs with hodd
    · dsimp only
      rw [Nat.cast_sub h1]
      push_cast
      ring
    · dsimp only
      push_cast
      ring
  · rw [if_neg hc]

theorem execResolve_account (cfg : Config) (c : ℚ) (i : ℕ) :
    ((execResolve cfg c i).1 : ℚ) + (execResolve cfg c i).2 =
      c + (baseLen cfg i : ℚ) +
        (if i = execsPerFrame cfg - 1 then sampleFractionPerFrame cfg else 0) := by
  have h1 := lastInject_account cfg i (parityAdjust cfg i (baseLen cfg i) c)
  have h2 := parityAdjust_account cfg c i
  simp only [execResolve]
  linarith

theorem resolveList_account (cfg : Config) :
    ∀ (l : List ℕ) (c : ℚ),
      (((resolveList cfg l c).1.sum : ℕ) : ℚ) + (resolveList cfg l c).2 =
        c + ((l.map fun i => (baseLen cfg i : ℚ) +
          if i = execsPerFrame cfg - 1 then sampleFractionPerFrame cfg else 0).sum) := by
  intro l
  induction l with
  | nil => intro c; simp [resolveList]
  | cons i is ih =>
    intro c
    simp only [resolveList, List.map_cons, List.sum_cons]
    have hacc := execResolve_account cfg c i
    have hih := ih (execResolve cfg c i).2
    push_cast at hih ⊢
    linarith

theorem speN_eq (cfg : Config) (h : Valid cfg) :
    (((samplesPerExec cfg).toNat : ℕ) : ℤ) = samplesPerExec cfg := by
  have hE := execsPerFrameQ_pos cfg h
  have hnn : 0 ≤ samplesPerExec cfg := by
    rw [samplesPerExec_eq_floor cfg h]
    exact Int.floor_nonneg.mpr (le_of_lt (div_pos (spf_pos cfg h) hE))
  omega

theorem baseLen_sum (cfg : Config) (h : Valid cfg) :
    ((∑ i in Finset.range (execsPerFrame cfg), baseLen cfg i : ℕ) : ℚ) =
      ((⌊samplesPerFrame cfg⌋ : ℤ) : ℚ) := by
  have hr := remN_le_execs cfg h
  have hnat : ∑ i in Finset.range (execsPerFrame cfg), baseLen cfg i =
      execsPerFrame cfg * (samplesPerExec cfg).toNat + (samplesRemainder cfg).toNat := by
    unfold baseLen
    rw [Finset.sum_add_distrib, Finset.sum_const, Finset.card_range, smul_eq_mul]
    congr 1
    rw [← Finset.sum_subset (Finset.range_subset.mpr hr)]
    · rw [Finset.sum_congr rfl (fun i hi => if_pos (Finset.mem_range.mp hi)),
        Finset.sum_const, Finset.card_range, smul_eq_mul, mul_one]
    · intro i _ hnot
      rw [Finset.mem_range] at hnot
      rw [if_neg (by omega)]
  have hspe := speN_eq cfg h
  have hremN : (((samplesRemainder cfg).toNat : ℕ) : ℤ) = samplesRemainder cfg := by
    have := (plan_identity cfg h).2.2.1
    omega
  have hplan := (plan_identity cfg h).2.1
  have hint : ((execsPerFrame cfg : ℕ) : ℤ) * (((samplesPerExec cfg).toNat : ℕ) : ℤ) +
      (((samplesRemainder cfg).toNat : ℕ) : ℤ) = ⌊samplesPerFrame cfg⌋ := by
    rw [hspe, hremN]
    exact hplan
  rw [hnat]
  exact_mod_cast congrArg (fun z : ℤ => (z : ℚ)) hint

/-- Exact per-frame accounting: the samples requested by one frame plus the
carry afterwards equal the carry before plus `samples_per_frame`. -/
theorem frame_accounting (cfg : Config) (h : Valid cfg) (c : ℚ) :
    (((frameLens cfg c).sum : ℕ) : ℚ) + carryStep cfg c = c + samplesPerFrame cfg := by
  obtain ⟨E', hE'⟩ : ∃ E', execsPerFrame cfg = E' + 1 :=
    ⟨execsPerFrame cfg - 1, by have := execsPerFrame_pos cfg h; omega⟩
  have hacc := resolveList_account cfg (List.range (execsPerFrame cfg)) c
  have hmap : ((List.range (execsPerFrame cfg)).map fun i => (baseLen cfg i : ℚ) +
      if i = execsPerFrame cfg - 1 then sampleFractionPerFrame cfg else 0).sum =
      (∑ i in Finset.range (execsPerFrame cfg), (baseLen cfg i : ℚ)) +
        sampleFractionPerFrame cfg := by
    have hbridge : ∀ (g : ℕ → ℚ) (n : ℕ),
        ((List.range n).map g).sum = ∑ i in Finset.range n, g i := by
      intro g n
      induction n with
      | zero => simp
      | succ n ih =>
        rw [List.range_succ, List.map_append, List.sum_append, Finset.sum_range_succ, ih]
        simp
    rw [hbridge]
    rw [Finset.sum_add_distrib]
    congr 1
    have hlastmem : execsPerFrame cfg - 1 ∈ Finset.range (execsPerFrame cfg) := by
      rw [Finset.mem_range]
      omega
    rw [Finset.sum_ite_eq' (Finset.range (execsPerFrame cfg)) (execsPerFrame cfg - 1)
      (fun _ => sampleFractionPerFrame cfg), if_pos hlastmem]
  have hfloor : ((⌊samplesPerFrame cfg⌋ : ℤ) : ℚ) + sampleFractionPerFrame cfg =
      samplesPerFrame cfg := by
    unfold sampleFractionPerFrame
    rw [cTrunc_eq_floor _ (le_of_lt (spf_pos cfg h))]
    ring
  have hb := baseLen_sum cfg h
  push_cast at hb
  unfold frameLens carryStep
  rw [hacc, hmap]
  linarith

/-- Invariant of the pure (no-truncation) run under the amended no-drift
hypothesis: total requested samples plus carry equals `K * samples_per_frame`
exactly, and the carry stays in `[0, channels)`. -/
theorem pure_invariant (cfg : Config) (h : Valid cfg) (hnet : frameNet cfg ≤ 0) :
    ∀ K : ℕ, ((pureCum cfg K : ℕ) : ℚ) + carryAt cfg K =
        (K : ℚ) * samplesPerFrame cfg ∧
      0 ≤ carryAt cfg K ∧ carryAt cfg K < (cfg.channels : ℚ) := by
  intro K
  induction K with
  | zero =>
    refine ⟨by simp [pureCum, carryAt], by simp [carryAt], ?_⟩
    show (0 : ℚ) < (cfg.channels : ℚ)
    have := channelsQ_one_le cfg h
    linarith
  | succ K ih =>
    obtain ⟨hsum, hc0, hc1⟩ := ih
    have hstep := frame_accounting cfg h (carryAt cfg K)
    have hbounds := carryStep_bounds cfg h hnet (carryAt cfg K) hc0 hc1
    have hcum : pureCum cfg (K + 1) = pureCum cfg K + frameDemand cfg K :=
      Finset.sum_range_succ _ K
    refine ⟨?_, hbounds.1, hbounds.2⟩
    show ((pureCum cfg (K + 1) : ℕ) : ℚ) + carryStep cfg (carryAt cfg K) = _
    rw [hcum]
    unfold frameDemand at hstep ⊢
    push_cast
    push_cast at hsum hstep
    linarith [hsum, hstep]

/-- Claim C1 (amended): for every valid configuration whose frame plan's
parity corrections do not net to `+1` sample per frame (`frameNet ≤ 0`;
the counterexample configuration `cfgDrift` has `frameNet = 1`), and every
`K`, the sum of all read lengths requested over the first `K` completed
frames differs from `floor(K * samples_per_frame)` by less than one
sample-pair (`channels` samples). -/
theorem c1_no_drift_amended (cfg : Config) (h : Valid cfg) (hnet : frameNet cfg ≤ 0)
    (K : ℕ) :
    (((pureCum cfg K : ℕ) : ℤ) - ⌊(K : ℚ) * samplesPerFrame cfg⌋).natAbs < cfg.channels := by
  obtain ⟨hsum, hc0, hc1⟩ := pure_invariant cfg h hnet K
  have hfl_le : ((⌊(K : ℚ) * samplesPerFrame cfg⌋ : ℤ) : ℚ) ≤
      (K : ℚ) * samplesPerFrame cfg := Int.floor_le _
  have hfl_gt : (K : ℚ) * samplesPerFrame cfg <
      ((⌊(K : ℚ) * samplesPerFrame cfg⌋ : ℤ) : ℚ) + 1 := by
    have := Int.lt_floor_add_one ((K : ℚ) * samplesPerFrame cfg)
    push_cast at this ⊢
    linarith
  have hchQ := channelsQ_one_le cfg h
  have hdiff_lo : -((cfg.channels : ℚ)) <
      ((pureCum cfg K : ℕ) : ℚ) - ((⌊(K : ℚ) * samplesPerFrame cfg⌋ : ℤ) : ℚ) := by
    linarith
  have hdiff_hi :
      ((pureCum cfg K : ℕ) : ℚ) - ((⌊(K : ℚ) * samplesPerFrame cfg⌋ : ℤ) : ℚ) <
        (cfg.channels : ℚ) := by
    linarith
  have hzlo : -(cfg.channels : ℤ) <
      ((pureCum cfg K : ℕ) : ℤ) - ⌊(K : ℚ) * samplesPerFrame cfg⌋ := by
    exact_mod_cast hdiff_lo
  have hzhi : ((pureCum cfg K : ℕ) : ℤ) - ⌊(K : ℚ) * samplesPerFrame cfg⌋ <
      (cfg.channels : ℤ) := by
    exact_mod_cast hdiff_hi
  omega

/-- Witness for the amended C1 at the default configuration (whose frame
plan has no parity corrections at all), over 3 frames. -/
theorem c1_no_drift_amended_witness :
    (((pureCum cfgDefault 3 : ℕ) : ℤ) - ⌊(3 : ℚ) * samplesPerFrame cfgDefault⌋).natAbs
      < cfgDefault.channels :=
  c1_no_drift_amended cfgDefault (by decide) (by with_unfolding_all decide) 3

/-! ## The read loop against a finite stream (claims C7 and C8) -/

theorem readList_spec (cfg : Config) :
    ∀ (l : List ℕ) (c : ℚ) (rem : ℕ),
      ((resolveList cfg l c).1.sum ≤ rem →
        readList cfg l c rem =
          ((resolveList cfg l c).2, rem - (resolveList cfg l c).1.sum, true)) ∧
      (rem < (resolveList cfg l c).1.sum → (readList cfg l c rem).2.2 = false) := by
  intro l
  induction l with
  | nil =>
    intro c rem
    constructor
    · intro _
      simp [readList, resolveList]
    · intro hlt
      simp [resolveList] at hlt
  | cons i is ih =>
    intro c rem
    constructor
    · intro hle
      simp only [resolveList, List.sum_cons] at hle ⊢
      have hile : (execResolve cfg c i).1 ≤ rem := by omega
      simp only [readList, if_pos hile]
      have hrest := (ih (execResolve cfg c i).2 (rem - (execResolve cfg c i).1)).1 (by omega)
      rw [hrest, Nat.sub_sub]
    · intro hlt
      simp only [resolveList, List.sum_cons] at hlt
      by_cases hile : (execResolve cfg c i).1 ≤ rem
      · simp only [readList, if_pos hile]
        exact (ih (execResolve cfg c i).2 (rem - (execResolve cfg c i).1)).2 (by omega)
      · simp only [readList, if_neg hile]

theorem pureCum_mono (cfg : Config) {a b : ℕ} (hab : a ≤ b) :
    pureCum cfg a ≤ pureCum cfg b :=
  Finset.sum_le_sum_of_subset (Finset.range_subset.mpr hab)

theorem frameStep_of_finished (cfg : Config) (err : Bool) (s : SState)
    (hs : s.finished = true) : frameStep cfg err s = s := by
  unfold frameStep
  rw [if_pos hs]

/-- Invariant of the stream run: while the demand of the first `K` frames
fits in the stream the state tracks the pure run and one line per frame has
been emitted; once it does not fit, the loop has finished, the error flag
equals the stream's error indicator, and exactly the fully-fitting frames
were emitted. -/
theorem run_inv (cfg : Config) (err : Bool) (N : ℕ) :
    ∀ K : ℕ,
      (pureCum cfg K ≤ N →
        runK cfg err N K = ⟨carryAt cfg K, N - pureCum cfg K, K, false, false⟩) ∧
      (N < pureCum cfg K →
        (runK cfg err N K).finished = true ∧ (runK cfg err N K).error = err ∧
          (runK cfg err N K).emitted =
            ((Finset.range K).filter (fun k => pureCum cfg (k + 1) ≤ N)).card) := by
  intro K
  induction K with
  | zero =>
    constructor
    · intro _
      simp [runK, pureCum, carryAt]
    · intro h0
      simp [pureCum] at h0
  | succ K ih =>
    have hcum : pureCum cfg (K + 1) = pureCum cfg K + frameDemand cfg K :=
      Finset.sum_range_succ _ K
    have hdemdef : frameDemand cfg K =
        (resolveList cfg (List.range (execsPerFrame cfg)) (carryAt cfg K)).1.sum := rfl
    constructor
    · intro hle
      have hKle : pureCum cfg K ≤ N := le_trans (pureCum_mono cfg (Nat.le_succ K)) hle
      have hrun := ih.1 hKle
      simp only [runK]
      rw [hrun]
      unfold frameStep
      rw [if_neg (by simp)]
      have hdem : (resolveList cfg (List.range (execsPerFrame cfg)) (carryAt cfg K)).1.sum
          ≤ N - pureCum cfg K := by omega
      have hread := (readList_spec cfg (List.range (execsPerFrame cfg))
        (carryAt cfg K) (N - pureCum cfg K)).1 hdem
      simp only [hread]
      have h2 : N - pureCum cfg K -
          (resolveList cfg (List.range (execsPerFrame cfg)) (carryAt cfg K)).1.sum =
          N - pureCum cfg (K + 1) := by omega
      have h1 : (resolveList cfg (List.range (execsPerFrame cfg)) (carryAt cfg K)).2 =
          carryAt cfg (K + 1) := rfl
      simp [h1, h2]
    · intro hlt
      by_cases hKle : pureCum cfg K ≤ N
      · -- the failing frame is frame K itself
        have hrun := ih.1 hKle
        simp only [runK]
        rw [hrun]
        unfold frameStep
        rw [if_neg (by simp)]
        have hdem : N - pureCum cfg K <
            (resolveList cfg (List.range (execsPerFrame cfg)) (carryAt cfg K)).1.sum := by
          omega
        have hread := (readList_spec cfg (List.range (execsPerFrame cfg))
          (carryAt cfg K) (N - pureCum cfg K)).2 hdem
        rw [if_neg (by rw [hread]; simp)]
        refine ⟨rfl, rfl, ?_⟩
        show K = _
        rw [Finset.range_succ, Finset.filter_insert, if_neg (by omega)]
        rw [Finset.filter_true_of_mem (fun k hk => ?_)]
        · rw [Finset.card_range]
        · rw [Finset.mem_range] at hk
          exact le_trans (pureCum_mono cfg (by omega)) hKle
      · -- already finished before frame K
        have hprev := ih.2 (by omega)
        have hfin : runK cfg err N (K + 1) = runK cfg err N K := by
          simp only [runK]
          exact frameStep_of_finished cfg err _ hprev.1
        rw [hfin]
        refine ⟨hprev.1, hprev.2.1, ?_⟩
        rw [hprev.2.2]
        congr 1
        rw [Finset.range_succ, Finset.filter_insert, if_neg]
        have : pureCum cfg K ≤ pureCum cfg (K + 1) := pureCum_mono cfg (Nat.le_succ K)
        omega

theorem resolveList_length (cfg : Config) :
    ∀ (l : List ℕ) (c : ℚ), (resolveList cfg l c).1.length = l.length := by
  intro l
  induction l with
  | nil => intro c; simp [resolveList]
  | cons i is ih => intro c; simp [resolveList, ih]

theorem frameLens_length (cfg : Config) (c : ℚ) :
    (frameLens cfg c).length = execsPerFrame cfg := by
  unfold frameLens
  rw [resolveList_length, List.length_range]

/-- Claim C7 (partial-frame suppression): a line is emitted for frame `k`
iff every exec of that frame reads its full requested length — equivalently
iff the cumulative demand through frame `k` fits the stream — and the lines
emitted after `K` frames are exactly one per fully-read frame.  The second
conjunct identifies "every exec of frame `k` reads fully" (every per-exec
cumulative demand fits) with "the frame's total demand fits". -/
theorem c7_partial_frame_suppression (cfg : Config) (h : Valid cfg) (err : Bool) (N : ℕ) :
    (∀ K, (runK cfg err N K).emitted =
        ((Finset.range K).filter (fun k => pureCum cfg (k + 1) ≤ N)).card) ∧
    (∀ k, pureCum cfg (k + 1) ≤ N ↔
        ∀ i < execsPerFrame cfg,
          pureCum cfg k + ((frameLens cfg (carryAt cfg k)).take (i + 1)).sum ≤ N) := by
  constructor
  · intro K
    by_cases hK : pureCum cfg K ≤ N
    · rw [(run_inv cfg err N K).1 hK]
      show K = _
      rw [Finset.filter_true_of_mem (fun k hk => ?_)]
      · rw [Finset.card_range]
      · rw [Finset.mem_range] at hk
        exact le_trans (pureCum_mono cfg (by omega)) hK
    · exact ((run_inv cfg err N K).2 (by omega)).2.2
  · intro k
    have hcum : pureCum cfg (k + 1) = pureCum cfg k + frameDemand cfg k :=
      Finset.sum_range_succ _ k
    constructor
    · intro hle i _
      have htake : ((frameLens cfg (carryAt cfg k)).take (i + 1)).sum ≤
          (frameLens cfg (carryAt cfg k)).sum := by
        have hsplit := List.sum_take_add_sum_drop (frameLens cfg (carryAt cfg k)) (i + 1)
        omega
      have : frameDemand cfg k = (frameLens cfg (carryAt cfg k)).sum := rfl
      omega
    · intro hall
      have hE := execsPerFrame_pos cfg h
      have hlast := hall (execsPerFrame cfg - 1) (by omega)
      have htake : (frameLens cfg (carryAt cfg k)).take (execsPerFrame cfg - 1 + 1) =
          frameLens cfg (carryAt cfg k) := by
        have hlen := frameLens_length cfg (carryAt cfg k)
        have : execsPerFrame cfg - 1 + 1 = (frameLens cfg (carryAt cfg k)).length := by
          omega
        rw [this, List.take_length]
      rw [htake] at hlast
      have : frameDemand cfg k = (frameLens cfg (carryAt cfg k)).sum := rfl
      omega

/-- Witness for C7 at the default configuration: a stream of 7056 samples
holds exactly two 3528-sample frames, so running 3 frames emits 2 lines. -/
theorem c7_partial_frame_suppression_witness :
    (runK cfgDefault false 7056 3).emitted =
      ((Finset.range 3).filter (fun k => pureCum cfgDefault (k + 1) ≤ 7056)).card :=
  (c7_partial_frame_suppression cfgDefault (by decide) false 7056).1 3

/-- Claim C8 (terminal outcome): the run carries an error exactly when it
finished on a short read with the stream's error indicator set (a clean
end-of-stream short read finishes without error); the loop finishes exactly
when the cumulative demand exceeds the stream; and after the first short
read the state never changes (the loop stops and never retries). -/
theorem c8_terminal_outcome (cfg : Config) (h : Valid cfg) (err : Bool) (N K : ℕ) :
    ((runK cfg err N K).error = ((runK cfg err N K).finished && err)) ∧
    ((runK cfg err N K).finished = true ↔ N < pureCum cfg K) ∧
    ((runK cfg err N K).finished = true → runK cfg err N (K + 1) = runK cfg err N K) := by
  refine ⟨?_, ⟨?_, ?_⟩, ?_⟩
  · by_cases hK : pureCum cfg K ≤ N
    · rw [(run_inv cfg err N K).1 hK]
      simp
    · obtain ⟨hfin, herr, _⟩ := (run_inv cfg err N K).2 (by omega)
      rw [hfin, herr]
      simp
  · intro hfin
    by_cases hK : pureCum cfg K ≤ N
    · rw [(run_inv cfg err N K).1 hK] at hfin
      simp at hfin
    · omega
  · intro hlt
    exact ((run_inv cfg err N K).2 hlt).1
  · intro hfin
    simp only [runK]
    exact frameStep_of_finished cfg err _ hfin

/-- Witness for C8 at the default configuration. -/
theorem c8_terminal_outcome_witness :
    (runK cfgDefault false 7056 3).error =
      ((runK cfgDefault false 7056 3).finished && false) :=
  (c8_terminal_outcome cfgDefault (by decide) false 7056 3).1

end CavaSpec
